import Mathlib

/-!
Verification development for the training module of
GAN-RNN_Timeseries-imputation (file `train.py`).

The module defines a batch-preparation function `process_series` and three
training loops (vanilla seq2seq, GAN, partially adversarial GAN). The shallow
embedding below models:

* numpy float entries as an inductive `FVal` (finite rational, NaN, plus and
  minus infinity), so that `np.isfinite` and `np.isnan` are exact;
* 1-D series as `List FVal`, 2-D batches as `List (List FVal)`, 3-D batches
  (after `np.expand_dims(axis = -1)`) as `List (List (List FVal))`;
* `np.random.choice(n, size = k, replace = False)` as a deterministic draw
  without replacement driven by an arbitrary random source `rand : Nat → Nat`;
* the external corruption policy `deterioration.apply` as an arbitrary
  function parameter `det`;
* loss computations over rational scalars, with the binary cross-entropy
  kernel kept abstract (only its label targets matter for the claims);
* the in-place/aliasing behaviour of `process_series` as explicit state
  passing over a heap of numpy arrays.
-/

set_option linter.unusedVariables false

/-- One numpy floating-point entry: either a finite numeric value, NaN, or an
infinity. Rationals stand in for the finite floats. -/
inductive FVal where
  | fin (q : ℚ)
  | nan
  | posInf
  | negInf
deriving DecidableEq, Repr

/-- `np.isfinite`: true exactly on finite values. -/
def isFiniteV : FVal → Bool
  | FVal.fin _ => true
  | _ => false

/-- `np.isnan`: true exactly on NaN (false on infinities). -/
def isNanV : FVal → Bool
  | FVal.nan => true
  | _ => false

/-- Line 28 of `train.py`: `series = series[ np.isfinite(series) ]`.
Boolean-mask advanced indexing keeps, in order, exactly the entries where the
mask is true, and returns a fresh array. -/
def right_trim (series : List FVal) : List FVal :=
  series.filter isFiniteV

/-- What the spec asserts the trim does: drop only the maximal trailing run of
non-finite values, keeping everything before it in place. Stated from the
words of the spec, for comparison with `right_trim`. -/
def dropTrailingNonFinite (series : List FVal) : List FVal :=
  (series.reverse.dropWhile (fun v => ! isFiniteV v)).reverse

/-- Modelled from the spec: `tools.RNN_univariate_processing` is external to
`train.py` (the windowing utility). Per the spec it maps a 1-D series and a
window length to the 2-D array of all overlapping fixed-length windows, and
raises no error when the series is shorter than the window (it then simply
yields no rows). -/
def RNN_univariate_processing (series : List FVal) (lenInput : Nat) :
    List (List FVal) :=
  (List.range (series.length + 1 - lenInput)).map
    (fun i => (series.drop i).take lenInput)

/-- Draw `k` elements without replacement from `pool`, driven by the random
source `rand` (each step consumes one value of the source, reduced modulo the
current pool size). Models the contract of
`np.random.choice(pool, size = k, replace = False)`. -/
def draw (rand : Nat → Nat) : Nat → Nat → List Nat → List Nat
  | _, 0, _ => []
  | _, _ + 1, [] => []
  | step, k + 1, x :: xs =>
    let pool := x :: xs
    let i := rand step % pool.length
    let c := pool.getD i 0
    c :: draw rand (step + 1) k (pool.erase c)

/-- Line 30 of `train.py`:
`np.random.choice(series.shape[0], size = np.min([series.shape[0], batch_size]), replace = False)`. -/
def sample_indices (rand : Nat → Nat) (n k : Nat) : List Nat :=
  draw rand 0 (min n k) (List.range n)

/-- The configuration entries of `params` that `process_series` reads. The
placeholder is kept as an `FVal` so that its finiteness is a hypothesis, not
an axiom of the model. -/
structure TrainParams where
  len_input : Nat
  batch_size : Nat
  placeholder_value : FVal
deriving Repr

/-- Line 34 of `train.py`:
`deteriorated[ np.isnan(deteriorated) ] = params['placeholder_value']`.
Replaces exactly the NaN entries (not infinities) by the placeholder. -/
def substitute_placeholder (ph : FVal) (rows : List (List FVal)) :
    List (List FVal) :=
  rows.map (fun r => r.map (fun v => if isNanV v then ph else v))

/-- Lines 37-38 of `train.py`: `np.expand_dims(_, axis = -1)` turns a 2-D
array of scalars into a 3-D array whose innermost dimension is a singleton. -/
def expand_dims_last (rows : List (List FVal)) : List (List (List FVal)) :=
  rows.map (fun r => r.map (fun v => [v]))

/-- Lines 24-40 of `train.py`: `process_series(series, params)`.
`rand` drives the subsampling; `det` is the external corruption policy
`deterioration.apply` (modelled from the spec as a function from a 2-D array
to a 2-D array). Returns the clean batch and the corrupted batch. -/
def process_series (rand : Nat → Nat)
    (det : List (List FVal) → List (List FVal))
    (series : List FVal) (params : TrainParams) :
    List (List (List FVal)) × List (List (List FVal)) :=
  let series1 := right_trim series
  let series2 := RNN_univariate_processing series1 params.len_input
  let sample := sample_indices rand series2.length params.batch_size
  let series3 := sample.filterMap (fun i => series2[i]?)
  let deteriorated1 := det series3
  let deteriorated2 := substitute_placeholder params.placeholder_value deteriorated1
  (expand_dims_last series3, expand_dims_last deteriorated2)

/-! ### Loss computations

Losses are computed over the flattened numeric entries of the tensors,
modelled as `List ℚ`. `tf.keras.losses.BinaryCrossentropy(from_logits = True)`
is kept abstract as a parameter `ce : List ℚ → List ℚ → ℚ` (targets first,
scores second, exactly as the code calls it): the claims below are about the
label targets handed to it and about how the loss terms are combined, not
about the transcendental kernel itself. -/

/-- `tf.keras.losses.MeanAbsoluteError()` applied to two tensors with the same
flattened entries: the mean of the absolute entry-wise differences. -/
def MAE (y p : List ℚ) : ℚ :=
  (List.zipWith (fun a b => |a - b|) y p).sum /
    ((List.zipWith (fun a b => |a - b|) y p).length : ℚ)

/-- `tf.ones_like`: a tensor of ones with the shape of the argument. -/
def onesLike (g : List ℚ) : List ℚ :=
  g.map (fun _ => 1)

/-- `tf.zeros_like`: a tensor of zeros with the shape of the argument. -/
def zerosLike (g : List ℚ) : List ℚ :=
  g.map (fun _ => 0)

/-- `tf.random.uniform(shape, minval, maxval)`: entry `i` is
`minval + (maxval - minval) * u i`, where the random source `u` yields values
in `[0, 1)`. -/
def tf_random_uniform (u : Nat → ℚ) (n : Nat) (minval maxval : ℚ) : List ℚ :=
  (List.range n).map (fun i => minval + (maxval - minval) * u i)

namespace GANLoop

/-- Lines 135-136 of `train.py` (`train_GAN`): the generator loss is the
cross-entropy of the discriminator scores on fakes against all-ones targets. -/
def generator_loss (ce : List ℚ → List ℚ → ℚ)
    (discriminator_guess_fakes : List ℚ) : ℚ :=
  ce (onesLike discriminator_guess_fakes) discriminator_guess_fakes

/-- Lines 146-148 of `train.py`: the soft label targets for fake scores,
`tf.random.uniform(shape, minval = 0.0, maxval = 0.2)`. -/
def fake_targets (u : Nat → ℚ) (discriminator_guess_fakes : List ℚ) : List ℚ :=
  tf_random_uniform u discriminator_guess_fakes.length 0 (1/5)

/-- Lines 150-152 of `train.py`: the soft label targets for real scores,
`tf.random.uniform(shape, minval = 0.8, maxval = 1)`. -/
def real_targets (u : Nat → ℚ) (discriminator_guess_reals : List ℚ) : List ℚ :=
  tf_random_uniform u discriminator_guess_reals.length (4/5) 1

/-- Lines 144-153 of `train.py` (`train_GAN`): discriminator loss with noisy
soft labels; `uF` and `uR` are the two independent uniform draws. -/
def discriminator_loss (ce : List ℚ → List ℚ → ℚ) (uF uR : Nat → ℚ)
    (discriminator_guess_reals discriminator_guess_fakes : List ℚ) : ℚ :=
  ce (fake_targets uF discriminator_guess_fakes) discriminator_guess_fakes +
    ce (real_targets uR discriminator_guess_reals) discriminator_guess_reals

end GANLoop

namespace HybridLoop

/-- Lines 270-276 of `train.py` (`train_partial_GAN.generator_loss`): the
blended generator loss `mae_loss * w + gan_loss * (1-w)`, where
`mae_loss = MAE(batch, deteriorated)` — note the second argument is the
`deteriorated` tensor that the caller passes in, whatever that is. -/
def generator_loss (ce : List ℚ → List ℚ → ℚ)
    (batch deteriorated discriminator_guess_fakes : List ℚ) (w : ℚ) : ℚ :=
  MAE batch deteriorated * w +
    ce (onesLike discriminator_guess_fakes) discriminator_guess_fakes * (1 - w)

/-- Lines 278-285 of `train.py` (`train_partial_GAN.discriminator_loss`):
hard-label discriminator loss, targets `tf.zeros_like` for fakes and
`tf.ones_like` for reals. -/
def discriminator_loss (ce : List ℚ → List ℚ → ℚ)
    (discriminator_guess_reals discriminator_guess_fakes : List ℚ) : ℚ :=
  ce (zerosLike discriminator_guess_fakes) discriminator_guess_fakes +
    ce (onesLike discriminator_guess_reals) discriminator_guess_reals

/-- Lines 287-305 of `train.py` (`train_partial_GAN.train_step`), restricted
to the loss values it computes: the generator imputes from `deteriorated`,
the discriminator scores the imputation and the real example, and the two
losses are produced. In particular `generator_loss` receives `deteriorated`
itself, not `generator_imputation`. -/
def train_step_losses (ce : List ℚ → List ℚ → ℚ)
    (generator discriminator : List ℚ → List ℚ)
    (batch deteriorated real_example : List ℚ) (w : ℚ) : ℚ × ℚ :=
  let generator_imputation := generator deteriorated
  let discriminator_guess_fakes := discriminator generator_imputation
  let discriminator_guess_reals := discriminator real_example
  (generator_loss ce batch deteriorated discriminator_guess_fakes w,
   discriminator_loss ce discriminator_guess_reals discriminator_guess_fakes)

end HybridLoop

/-! ### The per-epoch loop skeleton

All three training loops share the same epoch body (lines 87-105, 192-233 and
324-365 of `train.py`): `for iteration in range(n_files)`, one gradient step
per iteration, and a progress report when `iteration % 100 == 0`. -/

/-- An observable event of one epoch of any of the three training loops. -/
inductive LoopEvent where
  | gradient_step (iteration : Nat)
  | progress_report (iteration : Nat)
deriving DecidableEq, Repr

/-- One epoch of the loop skeleton: for each `iteration` below `n_files`, a
gradient step, followed by a progress report exactly when
`iteration % 100 == 0`. -/
def epoch_trace (n_files : Nat) : List LoopEvent :=
  (List.range n_files).flatMap (fun iteration =>
    LoopEvent.gradient_step iteration ::
      (if iteration % 100 = 0 then [LoopEvent.progress_report iteration] else []))

/-- Number of gradient steps in a trace. -/
def count_steps (t : List LoopEvent) : Nat :=
  t.countP (fun e => match e with
    | LoopEvent.gradient_step _ => true
    | _ => false)

/-- The iterations at which a progress report was emitted, in order. -/
def report_iterations (t : List LoopEvent) : List Nat :=
  t.filterMap (fun e => match e with
    | LoopEvent.progress_report i => some i
    | _ => none)

/-! ### Model persistence -/

/-- Lines 109, 237, 369 of `train.py`: the model/generator save path,
`os.getcwd() + '/saved_models/' + model_name + '.h5'`. -/
def saved_model_path (cwd model_name : String) : String :=
  cwd ++ "/saved_models/" ++ model_name ++ ".h5"

/-- Lines 241, 373 of `train.py`: the discriminator save path, the model name
with a `_discriminator` suffix. -/
def discriminator_path (cwd model_name : String) : String :=
  cwd ++ "/saved_models/" ++ model_name ++ "_discriminator.h5"

/-- Lines 109-110 of `train.py` (`train_vanilla_seq2seq`): on normal
completion, exactly one `model.save` call. -/
def vanilla_saved_files (cwd model_name : String) : List String :=
  [saved_model_path cwd model_name]

/-- Lines 237-242 (and 369-374) of `train.py`: both adversarial loops save
the generator unconditionally and the discriminator exactly when
`params['save_discriminator']` is set. -/
def GAN_saved_files (cwd model_name : String) (save_discriminator : Bool) :
    List String :=
  [saved_model_path cwd model_name] ++
    (if save_discriminator then [discriminator_path cwd model_name] else [])

/-! ### Heap model of the numpy arrays touched by `process_series`

To state that `process_series` never mutates its caller array, the numpy
side-effects are made explicit: a heap of arrays, addressed by allocation
index. Per numpy semantics, boolean-mask indexing (line 28), fancy row
indexing (line 31) and `np.copy` (line 32) allocate fresh arrays; the
external windowing utility and corruption policy return arrays (per the spec
they are functions from array to array), modelled as fresh allocations; the
NaN substitution (line 34) is the one in-place write, and it hits the
corruption output derived from the `np.copy` copy, never the input id. -/

/-- A numpy array of rank 1, 2 or 3 over `FVal` entries. -/
inductive NArr where
  | a1 (d : List FVal)
  | a2 (d : List (List FVal))
  | a3 (d : List (List (List FVal)))
deriving DecidableEq, Repr

/-- A heap of numpy arrays; the id of an array is its index in `cells`. -/
structure Heap where
  cells : List NArr
deriving DecidableEq, Repr

/-- Allocate a fresh array; the fresh id is the old `cells.length`. -/
def Heap.alloc (h : Heap) (a : NArr) : Heap :=
  ⟨h.cells ++ [a]⟩

/-- Read the array at id `i`. -/
def Heap.read (h : Heap) (i : Nat) : Option NArr :=
  h.cells[i]?

/-- Overwrite the array at id `i` in place. -/
def Heap.write (h : Heap) (i : Nat) (a : NArr) : Heap :=
  ⟨h.cells.set i a⟩

/-- Lines 24-40 of `train.py` with the numpy allocation/write behaviour made
explicit. `sid` is the id of the caller series; the result is the final heap
together with the ids of the two returned batches. The data flow is exactly
that of `process_series`; the heap records which operations allocate and
which write in place. -/
def process_series_heap (rand : Nat → Nat)
    (det : List (List FVal) → List (List FVal))
    (h : Heap) (sid : Nat) (params : TrainParams) : Heap × Nat × Nat :=
  let series0 := match h.read sid with
    | some (NArr.a1 d) => d
    | _ => []
  let series1 := right_trim series0
  let series2 := RNN_univariate_processing series1 params.len_input
  let sample := sample_indices rand series2.length params.batch_size
  let series3 := sample.filterMap (fun i => series2[i]?)
  let deteriorated1 := det series3
  let deteriorated2 := substitute_placeholder params.placeholder_value deteriorated1
  -- heap effects, in program order
  let h1 := h.alloc (NArr.a1 series1)            -- line 28: mask indexing copies
  let h2 := h1.alloc (NArr.a2 series2)           -- line 29: windowing result
  let h3 := h2.alloc (NArr.a2 series3)           -- line 31: fancy indexing copies
  let h4 := h3.alloc (NArr.a2 series3)           -- line 32: np.copy
  let did := h4.cells.length
  let h5 := h4.alloc (NArr.a2 deteriorated1)     -- line 33: corruption result
  let h6 := h5.write did (NArr.a2 deteriorated2) -- line 34: in-place substitution
  let rid1 := h6.cells.length
  let h7 := h6.alloc (NArr.a3 (expand_dims_last series3))    -- line 37
  let rid2 := h7.cells.length
  let h8 := h7.alloc (NArr.a3 (expand_dims_last deteriorated2)) -- line 38
  (h8, rid1, rid2)

/-! ### Concrete instances used to evaluate the definitions -/

/-- The all-zero random source. -/
def rand0 : Nat → Nat := fun _ => 0

/-- A corruption policy that replaces every entry by positive infinity: a
policy whose missing-markers are non-finite but not NaN. -/
def detInf : List (List FVal) → List (List FVal) :=
  fun x => x.map (fun r => r.map (fun _ => FVal.posInf))

/-- A corruption policy that replaces every entry by NaN: a policy whose
missing-markers are exactly NaN, as the code expects. -/
def detNaN : List (List FVal) → List (List FVal) :=
  fun x => x.map (fun r => r.map (fun _ => FVal.nan))

/-- A small concrete configuration: window length 1, batch size 1, finite
placeholder 0. -/
def P1 : TrainParams := ⟨1, 1, FVal.fin 0⟩

/-- The hypothesis of the trailing-trim claim: every non-finite entry of the
series sits in a trailing suffix after all the finite entries. -/
def trailing_only (s : List FVal) : Prop :=
  ∃ a b, s = a ++ b ∧ (∀ v ∈ a, isFiniteV v = true) ∧
    (∀ v ∈ b, isFiniteV v = false)

/-! ## Helper lemmas -/

/-- Every element drawn without replacement comes from the pool. -/
theorem draw_mem_of_mem (rand : Nat → Nat) :
    ∀ (k step : Nat) (pool : List Nat), ∀ c ∈ draw rand step k pool, c ∈ pool := by
  intro k
  induction k with
  | zero => intro step pool c hc; simp [draw] at hc
  | succ k ih =>
    intro step pool c hc
    match pool with
    | [] => simp [draw] at hc
    | x :: xs =>
      simp only [draw] at hc
      rcases List.mem_cons.mp hc with h | h
      · subst h
        have hlt : rand step % (x :: xs).length < (x :: xs).length :=
          Nat.mod_lt _ (by simp)
        rw [List.getD_eq_getElem _ _ hlt]
        exact List.getElem_mem hlt
      · exact List.erase_subset _ _ (ih _ _ _ h)

/-- Drawing without replacement from a duplicate-free pool yields
pairwise-distinct elements. -/
theorem draw_nodup (rand : Nat → Nat) :
    ∀ (k step : Nat) (pool : List Nat), pool.Nodup →
      (draw rand step k pool).Nodup := by
  intro k
  induction k with
  | zero => intro step pool _; simp [draw]
  | succ k ih =>
    intro step pool hpool
    match pool with
    | [] => simp [draw]
    | x :: xs =>
      simp only [draw]
      refine List.nodup_cons.mpr ⟨?_, ih _ _ (hpool.erase _)⟩
      intro hmem
      have h1 := draw_mem_of_mem rand k (step + 1) _ _ hmem
      exact ((hpool.mem_erase_iff).mp h1).1 rfl

/-- The number of elements drawn is the minimum of the requested count and
the pool size. -/
theorem draw_length (rand : Nat → Nat) :
    ∀ (k step : Nat) (pool : List Nat),
      (draw rand step k pool).length = min k pool.length := by
  intro k
  induction k with
  | zero => intro step pool; simp [draw]
  | succ k ih =>
    intro step pool
    match pool with
    | [] => simp [draw]
    | x :: xs =>
      simp only [draw, List.length_cons]
      have hlt : rand step % (xs.length + 1) < (x :: xs).length := by
        simp only [List.length_cons]
        exact Nat.mod_lt _ (by omega)
      have hmem : (x :: xs).getD (rand step % (xs.length + 1)) 0 ∈ x :: xs := by
        rw [List.getD_eq_getElem _ _ hlt]
        exact List.getElem_mem hlt
      rw [ih, List.length_erase_of_mem hmem]
      simp only [List.length_cons]
      omega

/-- The subsample indices of `process_series`: there are exactly
`min n k` of them, they are pairwise distinct, and each is a valid row
index below `n`. -/
theorem sample_indices_spec (rand : Nat → Nat) (n k : Nat) :
    (sample_indices rand n k).length = min n k ∧
    (sample_indices rand n k).Nodup ∧
    (∀ i ∈ sample_indices rand n k, i < n) := by
  refine ⟨?_, ?_, ?_⟩
  · rw [sample_indices, draw_length, List.length_range]
    omega
  · exact draw_nodup rand _ _ _ (List.nodup_range n)
  · intro i hi
    have := draw_mem_of_mem rand _ _ _ _ hi
    exact List.mem_range.mp this

/-- Every row of a window batch has exactly the window length. -/
theorem window_row_length (s : List FVal) (w : Nat) :
    ∀ row ∈ RNN_univariate_processing s w, row.length = w := by
  intro row hrow
  rcases List.mem_map.mp hrow with ⟨i, hi, rfl⟩
  have hi' := List.mem_range.mp hi
  simp only [List.length_take, List.length_drop]
  omega

/-- Row extraction by a list of valid indices keeps one row per index. -/
theorem filterMap_getElem_length {α : Type} (l : List α) :
    ∀ s : List Nat, (∀ i ∈ s, i < l.length) →
      (s.filterMap (fun i => l[i]?)).length = s.length := by
  intro s
  induction s with
  | nil => intro _; simp
  | cons i s ih =>
    intro hvalid
    have hi : i < l.length := hvalid i (List.mem_cons_self i s)
    have : l[i]? = some l[i] := List.getElem?_eq_getElem hi
    simp only [List.filterMap_cons, this, List.length_cons]
    rw [ih (fun j hj => hvalid j (List.mem_cons_of_mem i hj))]

/-- Every row extracted by index comes from the indexed list. -/
theorem mem_of_mem_filterMap_getElem {α : Type} {l : List α} {s : List Nat}
    {r : α} (hr : r ∈ s.filterMap (fun i => l[i]?)) : r ∈ l := by
  rcases List.mem_filterMap.mp hr with ⟨i, _, hget⟩
  rcases List.getElem?_eq_some.mp hget with ⟨hi, rfl⟩
  exact List.getElem_mem hi

/-- Dropping while a predicate holds skips a prefix on which it holds
everywhere. -/
theorem dropWhile_append_of_all {α : Type} (p : α → Bool) :
    ∀ (l₁ l₂ : List α), (∀ x ∈ l₁, p x = true) →
      (l₁ ++ l₂).dropWhile p = l₂.dropWhile p := by
  intro l₁
  induction l₁ with
  | nil => intro l₂ _; simp
  | cons x l ih =>
    intro l₂ hall
    simp only [List.cons_append, List.dropWhile_cons,
      hall x (List.mem_cons_self x l), if_true]
    exact ih l₂ (fun y hy => hall y (List.mem_cons_of_mem x hy))

/-- Dropping while a predicate holds is the identity when the predicate fails
on every element (in particular on the head). -/
theorem dropWhile_eq_self_of_all_false {α : Type} (p : α → Bool)
    (l : List α) (h : ∀ x ∈ l, p x = false) : l.dropWhile p = l := by
  cases l with
  | nil => rfl
  | cons x t =>
    simp only [List.dropWhile_cons, h x (List.mem_cons_self x t)]
    simp

/-- On a trailing-only series the finite-mask filter and the trailing trim
agree. -/
theorem right_trim_eq_dropTrailing_of_trailing_only (s : List FVal)
    (h : trailing_only s) : right_trim s = dropTrailingNonFinite s := by
  rcases h with ⟨a, b, rfl, ha, hb⟩
  have hfilter : right_trim (a ++ b) = a := by
    rw [right_trim, List.filter_append, List.filter_eq_self.mpr ha,
      List.filter_eq_nil_iff.mpr (by intro v hv; simp [hb v hv]), List.append_nil]
  have hdrop : dropTrailingNonFinite (a ++ b) = a := by
    rw [dropTrailingNonFinite, List.reverse_append]
    rw [dropWhile_append_of_all _ _ _
      (by intro v hv; simp [hb v (List.mem_reverse.mp hv)])]
    rw [dropWhile_eq_self_of_all_false _ _
      (by intro v hv; simp [ha v (List.mem_reverse.mp hv)])]
    exact List.reverse_reverse a
  rw [hfilter, hdrop]

/-! ## Claim theorems -/

/-- Claim C2, counterexample: on the series `[1, NaN, 2]` the non-finite
entry precedes a finite entry, so the claim says it is kept; the boolean
finite-mask of line 28 removes it, so the trim differs from a trailing-only
trim. -/
theorem C2_counterexample :
    ¬ (right_trim [FVal.fin 1, FVal.nan, FVal.fin 2] =
        dropTrailingNonFinite [FVal.fin 1, FVal.nan, FVal.fin 2]) := by
  decide

/-- Claim C2 (amended): batch preparation removes every non-finite value,
wherever it occurs — the trimmed series is the subsequence of exactly the
finite entries, in their original order; when all non-finite entries of the
input sit at the trailing edge (the invariant the upstream processing
guarantees), this coincides with dropping only the trailing non-finite run. -/
theorem C2_trim_behaviour (s : List FVal) (h : trailing_only s) :
    right_trim s = dropTrailingNonFinite s ∧
    (right_trim s).Sublist s ∧
    (∀ v ∈ right_trim s, isFiniteV v = true) ∧
    (∀ v ∈ s, isFiniteV v = true → v ∈ right_trim s) := by
  refine ⟨right_trim_eq_dropTrailing_of_trailing_only s h, ?_, ?_, ?_⟩
  · exact List.filter_sublist s
  · intro v hv
    exact (List.mem_filter.mp hv).2
  · intro v hv hfin
    exact List.mem_filter.mpr ⟨hv, hfin⟩

/-- Claim C2, witness: the amended theorem evaluated on the concrete series
`[1, 2, NaN]`, whose non-finite entries are all trailing. -/
theorem C2_trim_behaviour_witness :
    right_trim [FVal.fin 1, FVal.fin 2, FVal.nan] =
        dropTrailingNonFinite [FVal.fin 1, FVal.fin 2, FVal.nan] ∧
    (right_trim [FVal.fin 1, FVal.fin 2, FVal.nan]).Sublist
        [FVal.fin 1, FVal.fin 2, FVal.nan] ∧
    (∀ v ∈ right_trim [FVal.fin 1, FVal.fin 2, FVal.nan], isFiniteV v = true) ∧
    (∀ v ∈ [FVal.fin 1, FVal.fin 2, FVal.nan], isFiniteV v = true →
        v ∈ right_trim [FVal.fin 1, FVal.fin 2, FVal.nan]) :=
  C2_trim_behaviour [FVal.fin 1, FVal.fin 2, FVal.nan]
    ⟨[FVal.fin 1, FVal.fin 2], [FVal.nan], rfl, by decide, by decide⟩

/-- Claim C3, counterexample: with a corruption policy whose missing-marker
is positive infinity, the NaN-only substitution of line 34 leaves a
non-finite value in the corrupted batch, even though the input series is all
finite and the placeholder is finite. -/
theorem C3_counterexample :
    ¬ (∀ row ∈ (process_series rand0 detInf [FVal.fin 0] P1).2,
        ∀ cell ∈ row, ∀ v ∈ cell, isFiniteV v = true) := by
  decide

/-- Claim C3 (amended): provided every non-finite value produced by the
corruption policy is NaN (its documented missing-marker) and the placeholder
is finite, every entry of the corrupted batch returned by `process_series`
is finite. -/
theorem C3_substitution_finite (rand : Nat → Nat)
    (det : List (List FVal) → List (List FVal))
    (series : List FVal) (params : TrainParams)
    (hdet : ∀ (x : List (List FVal)) (r : List FVal) (v : FVal),
        r ∈ det x → v ∈ r → isNanV v = true ∨ isFiniteV v = true)
    (hph : isFiniteV params.placeholder_value = true) :
    ∀ row ∈ (process_series rand det series params).2,
      ∀ cell ∈ row, ∀ v ∈ cell, isFiniteV v = true := by
  intro row hrow cell hcell v hv
  simp only [process_series, expand_dims_last] at hrow
  rcases List.mem_map.mp hrow with ⟨r, hr, rfl⟩
  rcases List.mem_map.mp hcell with ⟨v0, hv0, rfl⟩
  rcases List.mem_singleton.mp hv with rfl
  simp only [substitute_placeholder] at hr
  rcases List.mem_map.mp hr with ⟨r1, hr1, rfl⟩
  rcases List.mem_map.mp hv0 with ⟨v1, hv1, rfl⟩
  by_cases hnan : isNanV v1 = true
  · simp [hnan, hph]
  · have := hdet _ _ _ hr1 hv1
    rcases this with h | h
    · exact absurd h hnan
    · simp [hnan, h]

/-- Claim C3, witness: the amended theorem evaluated with the all-NaN
corruption policy on a concrete series, together with the concrete value of
the corrupted batch it produces (the NaN became the placeholder 0). -/
theorem C3_substitution_finite_witness :
    (∀ row ∈ (process_series rand0 detNaN [FVal.fin 0] P1).2,
      ∀ cell ∈ row, ∀ v ∈ cell, isFiniteV v = true) ∧
    (process_series rand0 detNaN [FVal.fin 0] P1).2 = [[[FVal.fin 0]]] :=
  ⟨C3_substitution_finite rand0 detNaN [FVal.fin 0] P1
    (by
      intro x r v hr hv
      simp only [detNaN] at hr
      rcases List.mem_map.mp hr with ⟨r0, _, rfl⟩
      rcases List.mem_map.mp hv with ⟨v0, _, rfl⟩
      exact Or.inl rfl)
    (by decide), by decide⟩

/-- Claim C5: the subsample of `process_series` has exactly
`min (windowed rows) (batch size)` rows — never more rows than the windowed
series has — and the selected row indices are pairwise distinct and all
valid; accordingly the clean batch returned by `process_series` has exactly
that many rows. -/
theorem C5_subsample_bounds (rand : Nat → Nat)
    (det : List (List FVal) → List (List FVal))
    (series : List FVal) (params : TrainParams) :
    let n := (RNN_univariate_processing (right_trim series)
        params.len_input).length
    let sample := sample_indices rand n params.batch_size
    sample.length = min n params.batch_size ∧
    sample.Nodup ∧
    (∀ i ∈ sample, i < n) ∧
    (process_series rand det series params).1.length
      = min n params.batch_size := by
  intro n sample
  obtain ⟨hlen, hnodup, hvalid⟩ := sample_indices_spec rand n params.batch_size
  refine ⟨hlen, hnodup, hvalid, ?_⟩
  simp only [process_series, expand_dims_last, List.length_map]
  rw [filterMap_getElem_length _ _ hvalid]
  exact hlen

/-- Claim C4: assuming the corruption policy preserves the shape of its
argument (its interface contract), the clean batch and the corrupted batch
returned by `process_series` have the same number of rows, every row has the
configured window length, and every entry carries a trailing singleton
dimension — shape `(n, len_input, 1)` for both. -/
theorem C4_batch_shapes (rand : Nat → Nat)
    (det : List (List FVal) → List (List FVal))
    (series : List FVal) (params : TrainParams)
    (hdet : ∀ x : List (List FVal), (det x).map List.length = x.map List.length) :
    (process_series rand det series params).1.length
      = (process_series rand det series params).2.length ∧
    (∀ row ∈ (process_series rand det series params).1,
        row.length = params.len_input ∧ ∀ cell ∈ row, cell.length = 1) ∧
    (∀ row ∈ (process_series rand det series params).2,
        row.length = params.len_input ∧ ∀ cell ∈ row, cell.length = 1) := by
  have hdetlen : ∀ x : List (List FVal), (det x).length = x.length := by
    intro x
    have := congrArg List.length (hdet x)
    simpa using this
  have hrowlen : ∀ (x : List (List FVal)) (w : Nat),
      (∀ r ∈ x, r.length = w) → ∀ r ∈ det x, r.length = w := by
    intro x w hx r hr
    have hmem : r.length ∈ (det x).map List.length :=
      List.mem_map_of_mem List.length hr
    rw [hdet x] at hmem
    rcases List.mem_map.mp hmem with ⟨r0, hr0, hlen⟩
    rw [← hlen]
    exact hx r0 hr0
  refine ⟨?_, ?_, ?_⟩
  · simp only [process_series, expand_dims_last, substitute_placeholder,
      List.length_map]
    exact (hdetlen _).symm
  · intro row hrow
    simp only [process_series, expand_dims_last] at hrow
    rcases List.mem_map.mp hrow with ⟨r, hr, rfl⟩
    constructor
    · rw [List.length_map]
      exact window_row_length _ _ _ (mem_of_mem_filterMap_getElem hr)
    · intro cell hcell
      rcases List.mem_map.mp hcell with ⟨v, _, rfl⟩
      rfl
  · intro row hrow
    simp only [process_series, expand_dims_last, substitute_placeholder] at hrow
    rcases List.mem_map.mp hrow with ⟨r, hr, rfl⟩
    rcases List.mem_map.mp hr with ⟨r1, hr1, rfl⟩
    constructor
    · simp only [List.length_map]
      refine hrowlen _ params.len_input ?_ r1 hr1
      intro r2 hr2
      exact window_row_length _ _ _ (mem_of_mem_filterMap_getElem hr2)
    · intro cell hcell
      rcases List.mem_map.mp hcell with ⟨v, _, rfl⟩
      rfl

/-- Claim C4, witness: the shape theorem evaluated with the identity
corruption policy on a concrete series. -/
theorem C4_batch_shapes_witness :
    (process_series rand0 id [FVal.fin 0] P1).1.length
      = (process_series rand0 id [FVal.fin 0] P1).2.length ∧
    (∀ row ∈ (process_series rand0 id [FVal.fin 0] P1).1,
        row.length = P1.len_input ∧ ∀ cell ∈ row, cell.length = 1) ∧
    (∀ row ∈ (process_series rand0 id [FVal.fin 0] P1).2,
        row.length = P1.len_input ∧ ∀ cell ∈ row, cell.length = 1) :=
  C4_batch_shapes rand0 id [FVal.fin 0] P1 (fun _ => rfl)

/-- Claim C1: the failing input evaluated. The generator reconstructs the
clean batch perfectly (the mean absolute error of its output against the
clean batch is 0) and the blend weight is 1, so by the claim the per-step
generator loss should be `1 * 0 + (1 - 1) * L_adv = 0`; the loss computed by
`train_step` is 1, because the MAE term of `generator_loss` compares the
clean batch with the corrupted input itself rather than with the generator
reconstruction of it. -/
theorem C1_blend_uses_corrupted_input :
    (HybridLoop.train_step_losses (fun _ _ => 0) (fun _ => [0]) (fun _ => [0])
        [0] [1] [0] 1).1 = 1 ∧
    MAE [0] ((fun _ => ([0] : List ℚ)) [1]) = 0 ∧
    1 * MAE [0] ((fun _ => ([0] : List ℚ)) [1]) +
      (1 - 1) * (fun _ _ => (0 : ℚ)) (onesLike [0]) [0] = 0 := by
  refine ⟨?_, ?_, ?_⟩
  · norm_num [HybridLoop.train_step_losses, HybridLoop.generator_loss, MAE]
  · norm_num [MAE]
  · norm_num [MAE]

/-- Claim C6: assuming the uniform random sources yield values in `[0, 1)`,
every real-example label target of the GAN discriminator loss lies in
`[0.8, 1.0]` and every fake label target lies in `[0.0, 0.2]`, and the loss
is the cross-entropy against exactly these targets. -/
theorem C6_soft_label_ranges (ce : List ℚ → List ℚ → ℚ) (uF uR : Nat → ℚ)
    (guess_reals guess_fakes : List ℚ)
    (hF : ∀ i, 0 ≤ uF i ∧ uF i < 1) (hR : ∀ i, 0 ≤ uR i ∧ uR i < 1) :
    (∀ t ∈ GANLoop.real_targets uR guess_reals, 4/5 ≤ t ∧ t ≤ 1) ∧
    (∀ t ∈ GANLoop.fake_targets uF guess_fakes, 0 ≤ t ∧ t ≤ 1/5) ∧
    GANLoop.discriminator_loss ce uF uR guess_reals guess_fakes
      = ce (GANLoop.fake_targets uF guess_fakes) guess_fakes
        + ce (GANLoop.real_targets uR guess_reals) guess_reals := by
  refine ⟨?_, ?_, rfl⟩
  · intro t ht
    simp only [GANLoop.real_targets, tf_random_uniform, List.mem_map] at ht
    rcases ht with ⟨i, _, rfl⟩
    constructor
    · nlinarith [(hR i).1]
    · nlinarith [(hR i).2]
  · intro t ht
    simp only [GANLoop.fake_targets, tf_random_uniform, List.mem_map] at ht
    rcases ht with ⟨i, _, rfl⟩
    constructor
    · nlinarith [(hF i).1]
    · nlinarith [(hF i).2]

/-- Claim C6, witness: the range theorem evaluated at the constant-zero
random sources and singleton score tensors. -/
theorem C6_soft_label_ranges_witness :
    (∀ t ∈ GANLoop.real_targets (fun _ => 0) [0], 4/5 ≤ t ∧ t ≤ 1) ∧
    (∀ t ∈ GANLoop.fake_targets (fun _ => 0) [0], 0 ≤ t ∧ t ≤ 1/5) ∧
    GANLoop.discriminator_loss (fun _ _ => 0) (fun _ => 0) (fun _ => 0) [0] [0]
      = (fun _ _ => (0 : ℚ)) (GANLoop.fake_targets (fun _ => 0) [0]) [0]
        + (fun _ _ => (0 : ℚ)) (GANLoop.real_targets (fun _ => 0) [0]) [0] :=
  C6_soft_label_ranges (fun _ _ => 0) (fun _ => 0) (fun _ => 0) [0] [0]
    (fun _ => ⟨le_refl 0, by norm_num⟩) (fun _ => ⟨le_refl 0, by norm_num⟩)

/-- Claim C7: the discriminator loss of the partially adversarial loop uses
hard constant labels — the target tensor for the fake scores is identically
0, the one for the real scores identically 1 (each is a `replicate` of the
corresponding score count, so no randomness enters the targets), and the
loss is the cross-entropy against exactly these constant targets. -/
theorem C7_hard_labels (ce : List ℚ → List ℚ → ℚ)
    (guess_reals guess_fakes : List ℚ) :
    HybridLoop.discriminator_loss ce guess_reals guess_fakes
      = ce (zerosLike guess_fakes) guess_fakes
        + ce (onesLike guess_reals) guess_reals ∧
    (∀ t ∈ zerosLike guess_fakes, t = 0) ∧
    (∀ t ∈ onesLike guess_reals, t = 1) ∧
    zerosLike guess_fakes = List.replicate guess_fakes.length 0 ∧
    onesLike guess_reals = List.replicate guess_reals.length 1 := by
  refine ⟨rfl, ?_, ?_, ?_, ?_⟩
  · intro t ht
    rcases List.mem_map.mp ht with ⟨v, _, rfl⟩
    rfl
  · intro t ht
    rcases List.mem_map.mp ht with ⟨v, _, rfl⟩
    rfl
  · exact List.eq_replicate_iff.mpr ⟨by simp [zerosLike], by
      intro t ht
      rcases List.mem_map.mp ht with ⟨v, _, rfl⟩
      rfl⟩
  · exact List.eq_replicate_iff.mpr ⟨by simp [onesLike], by
      intro t ht
      rcases List.mem_map.mp ht with ⟨v, _, rfl⟩
      rfl⟩

/-- One epoch block: a gradient step, then a report exactly on multiples of
100. -/
theorem epoch_trace_succ (n : Nat) :
    epoch_trace (n + 1) = epoch_trace n ++
      (LoopEvent.gradient_step n ::
        (if n % 100 = 0 then [LoopEvent.progress_report n] else [])) := by
  simp only [epoch_trace, List.range_succ, List.flatMap_append]
  simp

/-- Claim C8: in the shared epoch skeleton of the three training loops, one
gradient step is performed per training file, and a progress report is
emitted exactly at the iterations divisible by 100 — iteration 0 included;
for a directory of 3 training files an epoch performs exactly 3 gradient
steps and emits exactly one report, at iteration 0. -/
theorem C8_progress_reports (n_files : Nat) :
    count_steps (epoch_trace n_files) = n_files ∧
    (∀ i, LoopEvent.progress_report i ∈ epoch_trace n_files ↔
        i < n_files ∧ i % 100 = 0) ∧
    count_steps (epoch_trace 3) = 3 ∧
    report_iterations (epoch_trace 3) = [0] := by
  refine ⟨?_, ?_, by decide, by decide⟩
  · induction n_files with
    | zero => decide
    | succ n ih =>
      rw [epoch_trace_succ, count_steps, List.countP_append]
      rw [count_steps] at ih
      rw [ih]
      by_cases h : n % 100 = 0 <;> simp [h, List.countP_cons]
  · intro i
    constructor
    · intro hmem
      rcases List.mem_flatMap.mp hmem with ⟨a, ha, hblock⟩
      have ha' := List.mem_range.mp ha
      rcases List.mem_cons.mp hblock with h | h
      · exact absurd h (by simp)
      · by_cases hmod : a % 100 = 0
        · rw [if_pos hmod] at h
          rcases List.mem_singleton.mp h with h
          cases h
          exact ⟨ha', hmod⟩
        · rw [if_neg hmod] at h
          exact absurd h (List.not_mem_nil _)
    · rintro ⟨hlt, hmod⟩
      refine List.mem_flatMap.mpr ⟨i, List.mem_range.mpr hlt, ?_⟩
      rw [if_pos hmod]
      exact List.mem_cons_of_mem _ (List.mem_singleton.mpr rfl)

/-- Claim C9: the vanilla loop persists exactly one model file, at the path
derived from the configured model name; each adversarial loop persists the
generator at that same path always, and persists the discriminator — at the
model name with a `_discriminator` suffix, a path distinct from the
generator one — exactly when the save-discriminator flag is set. -/
theorem C9_persisted_files (cwd name : String) :
    vanilla_saved_files cwd name = [saved_model_path cwd name] ∧
    (vanilla_saved_files cwd name).length = 1 ∧
    GAN_saved_files cwd name true
      = [saved_model_path cwd name, discriminator_path cwd name] ∧
    GAN_saved_files cwd name false = [saved_model_path cwd name] ∧
    saved_model_path cwd name ≠ discriminator_path cwd name ∧
    (∀ flag : Bool,
        (discriminator_path cwd name ∈ GAN_saved_files cwd name flag ↔
          flag = true)) := by
  have hne : saved_model_path cwd name ≠ discriminator_path cwd name := by
    intro heq
    have hlen := congrArg String.length heq
    simp only [saved_model_path, discriminator_path, String.length_append] at hlen
    have h3 : ".h5".length = 3 := rfl
    have h17 : "_discriminator.h5".length = 17 := rfl
    omega
  refine ⟨rfl, rfl, rfl, rfl, hne, ?_⟩
  intro flag
  cases flag with
  | true =>
    simp [GAN_saved_files]
  | false =>
    constructor
    · intro hmem
      have hmem' : discriminator_path cwd name = saved_model_path cwd name := by
        simpa [GAN_saved_files] using hmem
      exact absurd hmem'.symm hne
    · intro h
      simp at h

/-- Reading a valid id is unaffected by allocating a fresh array. -/
theorem Heap.read_alloc_of_lt (h : Heap) (a : NArr) (i : Nat)
    (hi : i < h.cells.length) : (h.alloc a).read i = h.read i := by
  simp only [Heap.alloc, Heap.read, List.getElem?_append, if_pos hi]

/-- Reading an id is unaffected by an in-place write at a different id. -/
theorem Heap.read_write_of_ne (h : Heap) (j : Nat) (a : NArr) (i : Nat)
    (hij : j ≠ i) : (h.write j a).read i = h.read i := by
  simp only [Heap.write, Heap.read]
  exact List.getElem?_set_ne hij

/-- Allocation grows the heap by one cell. -/
theorem Heap.length_alloc (h : Heap) (a : NArr) :
    (h.alloc a).cells.length = h.cells.length + 1 := by
  simp [Heap.alloc]

/-- An in-place write leaves the heap size unchanged. -/
theorem Heap.length_write (h : Heap) (j : Nat) (a : NArr) :
    (h.write j a).cells.length = h.cells.length := by
  simp [Heap.write]

/-- Claim C10: `process_series` never mutates the caller array. In the heap
model of the numpy effects — every trim/window/subsample/copy step allocates
a fresh array, and the one in-place write (the NaN substitution) hits the
corruption output derived from the `np.copy` copy — the array at the caller
id is bit-for-bit unchanged after the call. -/
theorem C10_no_input_mutation (rand : Nat → Nat)
    (det : List (List FVal) → List (List FVal))
    (h : Heap) (sid : Nat) (params : TrainParams)
    (hs : sid < h.cells.length) :
    ((process_series_heap rand det h sid params).1).read sid = h.read sid := by
  simp only [process_series_heap]
  rw [Heap.read_alloc_of_lt, Heap.read_alloc_of_lt, Heap.read_write_of_ne,
    Heap.read_alloc_of_lt, Heap.read_alloc_of_lt, Heap.read_alloc_of_lt,
    Heap.read_alloc_of_lt, Heap.read_alloc_of_lt]
  all_goals try simp only [Heap.length_alloc, Heap.length_write]
  all_goals omega

/-- Claim C10, witness: the no-mutation theorem evaluated on a concrete
one-cell heap holding the series, with the identity corruption policy. -/
theorem C10_no_input_mutation_witness :
    ((process_series_heap rand0 id ⟨[NArr.a1 [FVal.fin 0]]⟩ 0 P1).1).read 0
      = Heap.read ⟨[NArr.a1 [FVal.fin 0]]⟩ 0 :=
  C10_no_input_mutation rand0 id ⟨[NArr.a1 [FVal.fin 0]]⟩ 0 P1 (by decide)
